import Mathlib

/-!
Shallow embedding of the compression codec of `src/compression.rs` and the
varint codec of `src/misc.rs`.

Bytes are modelled as `Nat` (every value read from or written to a stream is
kept below 256 by the operations themselves).  Rust's `std::io::Cursor` over a
byte vector — the concrete reader/writer the library itself instantiates the
generic `Read + Write + Seek` bounds with (`misc.rs`, `Cursor<Vec<u8>>`) — is
modelled by `Cursor` below: a byte list plus a position.  Fallible operations
return `Except`.  A Rust integer-overflow panic (debug semantics) is modelled
by the dedicated error value `overflow`.
-/

/-- One byte cursor over a growable byte buffer, after `std::io::Cursor<Vec<u8>>`:
`data` is the underlying buffer, `pos` the stream position. -/
structure Cursor where
  data : List Nat
  pos : Nat
deriving DecidableEq, Repr

/-- `CompressionCommand` of `compression.rs` (2-bit command codes). -/
inductive CompressionCommand where
  | endBlock
  | copy
  | lz77
  | rle
deriving DecidableEq, Repr

/-- `IntoPrimitive`: the `u8` discriminant of a command. -/
def commandCode : CompressionCommand → Nat
  | .endBlock => 0
  | .copy => 1
  | .lz77 => 2
  | .rle => 3

/-- `TryFromPrimitive`: recover a command from a `u8`, `none` on values ≥ 4. -/
def commandOfNat : Nat → Option CompressionCommand
  | 0 => some .endBlock
  | 1 => some .copy
  | 2 => some .lz77
  | 3 => some .rle
  | _ => none

/-- `DecompressionError` of `compression.rs`.  `ioError` stands for any
propagated `std::io::Error` (end of stream, seek before start); `overflow`
models a Rust integer-overflow panic. -/
inductive DecompressionError where
  | invalidCompressionCommand (code : Nat)
  | incorrectUncompressedSize (declared actual : Nat)
  | incorrectBlockSize (declared actual : Nat)
  | ioError
  | overflow
deriving DecidableEq, Repr

/-- `CompressionError` of `compression.rs` (`TryFromInt` on a size that does not
fit its target type); `overflow` models a Rust integer-overflow panic. -/
inductive CompressionError where
  | tryFromInt
  | ioError
  | overflow
deriving DecidableEq, Repr

/-! ## Cursor primitives (`std::io::Cursor<Vec<u8>>` semantics) -/

/-- `read_u8`: read the byte at the current position, advancing; end of
stream is an I/O error. -/
def readU8 (s : Cursor) : Except DecompressionError (Nat × Cursor) :=
  match s.data.drop s.pos with
  | [] => .error .ioError
  | b :: _ => .ok (b, ⟨s.data, s.pos + 1⟩)

/-- `read_u16::<LittleEndian>`. -/
def readU16LE (s : Cursor) : Except DecompressionError (Nat × Cursor) :=
  match readU8 s with
  | .error e => .error e
  | .ok (lo, s1) =>
    match readU8 s1 with
    | .error e => .error e
    | .ok (hi, s2) => .ok (lo + 256 * hi, s2)

/-- `read_exact` into a buffer of `n` bytes: fails with `UnexpectedEof`
when fewer than `n` bytes remain before the end of the buffer. -/
def readExact (s : Cursor) (n : Nat) : Except DecompressionError (List Nat × Cursor) :=
  if s.pos + n ≤ s.data.length then
    .ok ((s.data.drop s.pos).take n, ⟨s.data, s.pos + n⟩)
  else .error .ioError

/-- `seek_relative(-d)`: seeking before the start of the stream is an
I/O error. -/
def seekBack (s : Cursor) (d : Nat) : Except DecompressionError Cursor :=
  if d ≤ s.pos then .ok ⟨s.data, s.pos - d⟩ else .error .ioError

/-- `seek(SeekFrom::End(0))`. -/
def seekEnd (s : Cursor) : Cursor := ⟨s.data, s.data.length⟩

/-- `write_all` on a `Cursor<Vec<u8>>`: overwrite starting at the current
position, zero-filling any gap past the end, growing the buffer as needed. -/
def writeAll (s : Cursor) (bs : List Nat) : Cursor :=
  ⟨s.data.take s.pos ++ List.replicate (s.pos - s.data.length) 0 ++ bs
      ++ s.data.drop (s.pos + bs.length),
    s.pos + bs.length⟩

/-! ## Varint codec (`misc.rs`) -/

/-- The loop of `read_varint`: `for i in 0..size { result |= byte << ((i+1)*6) }`,
with `remaining = size - i` iterations left. -/
def readVarintAux (s : Cursor) (i : Nat) (remaining : Nat) (acc : Nat) :
    Except DecompressionError (Nat × Cursor) :=
  match remaining with
  | 0 => .ok (acc, s)
  | r + 1 =>
    match readU8 s with
    | .error e => .error e
    | .ok (b, s1) => readVarintAux s1 (i + 1) r (acc ||| (b <<< ((i + 1) * 6)))

/-- `VarIntReader::read_varint`: top 2 bits of the first byte give the number
of extra bytes; the low 6 bits and each extra byte are OR-ed in at successive
6-bit offsets. -/
def readVarint (s : Cursor) : Except DecompressionError (Nat × Cursor) :=
  match readU8 s with
  | .error e => .error e
  | .ok (data, s1) => readVarintAux s1 0 (data >>> 6) (data &&& 63)

/-- The `while self > 255` push loop of `VarInt::encode_var` (plus the final
`if self > 0` push), collecting the bytes pushed after the first one.
Each pushed byte is `self as u8`, i.e. `self % 256`. -/
def varIntTail (self : Nat) : List Nat :=
  if self > 255 then self % 256 :: varIntTail (self / 64)
  else if self > 0 then [self] else []
termination_by self
decreasing_by exact Nat.div_lt_self (by omega) (by omega)

/-- `VarInt::encode_var` for `u32`: first byte is the low 6 bits plus
`1 << 6` for every extra byte pushed; the `+=` on the `u8` first byte
overflows (Rust panic) when 4 extra bytes are needed. -/
def encodeVar (x : Nat) : Except CompressionError (List Nat) :=
  let tail := varIntTail (x / 64)
  if x % 64 + 64 * tail.length > 255 then .error .overflow
  else .ok ((x % 64 + 64 * tail.length) :: tail)

/-! ## Decoder (`decompress` of `compression.rs`) -/

/-- Execute one non-`EndBlock` command against the source and destination
cursors, as in the `match` of `decompress`.  The `Rle` arm models
`let count = src.read_u8()? + 2;`, whose `u8` addition overflows (Rust
panic) when the count byte is 254 or 255. -/
def execCommand (c : CompressionCommand) (src dst : Cursor) :
    Except DecompressionError (Cursor × Cursor) :=
  match c with
  | .endBlock => .ok (src, dst)
  | .copy =>
    match readU8 src with
    | .error e => .error e
    | .ok (b, src1) => .ok (src1, writeAll dst [b])
  | .lz77 =>
    match readU8 src with
    | .error e => .error e
    | .ok (b0, src1) =>
      match readU8 src1 with
      | .error e => .error e
      | .ok (b1, src2) =>
        match seekBack dst (b0 ||| ((b1 &&& 0xF0) <<< 4)) with
        | .error e => .error e
        | .ok dst1 =>
          match readExact dst1 ((b1 &&& 0x0F) + 2) with
          | .error e => .error e
          | .ok (buf, dst2) => .ok (src2, writeAll (seekEnd dst2) buf)
  | .rle =>
    match readU8 src with
    | .error e => .error e
    | .ok (n, src1) =>
      if n + 2 > 255 then .error .overflow
      else
        match readU8 src1 with
        | .error e => .error e
        | .ok (v, src2) => .ok (src2, writeAll dst (List.replicate (n + 2) v))

/-- Process up to `k` of the four 2-bit commands packed in `cb` (low pair
first, `commands_byte >>= 2` after each).  The returned flag is true when
`EndBlock` stopped the block. -/
def runGroup (cb : Nat) (k : Nat) (src dst : Cursor) :
    Except DecompressionError (Cursor × Cursor × Bool) :=
  match k with
  | 0 => .ok (src, dst, false)
  | k + 1 =>
    match commandOfNat (cb &&& 0x03) with
    | none => .error (.invalidCompressionCommand (cb &&& 0x03))
    | some .endBlock => .ok (src, dst, true)
    | some c =>
      match execCommand c src dst with
      | .error e => .error e
      | .ok (src1, dst1) => runGroup (cb >>> 2) k src1 dst1

/-- The `'block: for _ in 0..256` loop: read a command-group byte and run its
four commands, until `EndBlock` or 256 iterations. -/
def runBlockBody (fuel : Nat) (src dst : Cursor) :
    Except DecompressionError (Cursor × Cursor) :=
  match fuel with
  | 0 => .ok (src, dst)
  | f + 1 =>
    match readU8 src with
    | .error e => .error e
    | .ok (cb, src1) =>
      match runGroup cb 4 src1 dst with
      | .error e => .error e
      | .ok (src2, dst2, ended) =>
        if ended then .ok (src2, dst2) else runBlockBody f src2 dst2

/-- The strict per-block check of `decompress`: compare the declared 2-byte
size prefix against the input bytes actually consumed by the block. -/
def checkBlockSize (strict : Bool) (declared actual : Nat) :
    Except DecompressionError Unit :=
  if strict then
    if actual ≠ declared then .error (.incorrectBlockSize declared actual)
    else .ok ()
  else .ok ()

/-- The strict final check of `decompress`: compare the header's declared
uncompressed size against the total bytes written. -/
def checkUncompressedSize (strict : Bool) (declared actual : Nat) :
    Except DecompressionError Unit :=
  if strict then
    if actual ≠ declared then .error (.incorrectUncompressedSize declared actual)
    else .ok ()
  else .ok ()

/-- The per-block loop of `decompress`: read the 2-byte size prefix, decode
the block body, then apply the strict block-size check. -/
def runBlocks (strict : Bool) (n : Nat) (src dst : Cursor) :
    Except DecompressionError (Cursor × Cursor) :=
  match n with
  | 0 => .ok (src, dst)
  | n + 1 =>
    match readU16LE src with
    | .error e => .error e
    | .ok (bs, src1) =>
      match runBlockBody 256 src1 dst with
      | .error e => .error e
      | .ok (src2, dst2) =>
        match checkBlockSize strict bs (src2.pos - src1.pos) with
        | .error e => .error e
        | .ok _ => runBlocks strict n src2 dst2

/-- `decompress(src, dst, strict)`: header varints (`uncompressed_size`,
`num_blocks - 1`), the block loop, and the strict uncompressed-size check.
Returns the final source and destination cursors. -/
def decompress (src dst : Cursor) (strict : Bool) :
    Except DecompressionError (Cursor × Cursor) :=
  match readVarint src with
  | .error e => .error e
  | .ok (us, src1) =>
    match readVarint src1 with
    | .error e => .error e
    | .ok (nbRaw, src2) =>
      match runBlocks strict (nbRaw + 1) src2 dst with
      | .error e => .error e
      | .ok (src3, dst3) =>
        match checkUncompressedSize strict us dst3.pos with
        | .error e => .error e
        | .ok _ => .ok (src3, dst3)

/-! ## Greedy encoder (`compress` of `compression.rs`) -/

/-- The inner `while` of the LZ77 match search: extend `cl` while it is
below 17, below the candidate distance `off`, and the block has bytes left,
as long as `src[cup + cl] == src[cup - off + cl]`. -/
def matchLengthFrom (src : List Nat) (cup off bOff bSz cl : Nat) : Nat :=
  if cl < 17 ∧ cl < off ∧ bOff + cl < bSz then
    if src.getD (cup + cl) 0 = src.getD (cup - off + cl) 0 then
      matchLengthFrom src cup off bOff bSz (cl + 1)
    else cl
  else cl
termination_by 17 - cl

/-- Match length of candidate distance `off` at absolute position `cup`
(block offset `bOff`, block size `bSz`), starting from 0. -/
def matchLength (src : List Nat) (cup off bOff bSz : Nat) : Nat :=
  matchLengthFrom src cup off bOff bSz 0

/-- The `for offset in (2..=min(p,0xFFF)).rev()` scan: candidate distances
from `off` down to 2, keeping `best` and updating only on strictly greater
match length. -/
def lz77Go (src : List Nat) (cup bOff bSz : Nat) (off : Nat) (best : Nat × Nat) :
    Nat × Nat :=
  if 2 ≤ off then
    let cl := matchLength src cup off bOff bSz
    lz77Go src cup bOff bSz (off - 1) (if best.1 < cl then (cl, off) else best)
  else best
termination_by off

/-- The full LZ77 match search at position `cup`:
`(lz77_best_length, lz77_best_offset)`, both initially 0. -/
def lz77Search (src : List Nat) (cup bOff bSz : Nat) : Nat × Nat :=
  lz77Go src cup bOff bSz (min cup 0xFFF) (0, 0)

/-- The RLE scan: extend `rc` while the block has bytes left, `rc < 257`,
and `src[cup + rc] == src[cup]`. -/
def rleCountFrom (src : List Nat) (cup bOff bSz rc : Nat) : Nat :=
  if bOff + rc < bSz ∧ rc < 257 then
    if src.getD (cup + rc) 0 = src.getD cup 0 then
      rleCountFrom src cup bOff bSz (rc + 1)
    else rc
  else rc
termination_by 257 - rc

/-- `rle_count`, starting from 1. -/
def rleCount (src : List Nat) (cup bOff bSz : Nat) : Nat :=
  rleCountFrom src cup bOff bSz 1

/-- One command slot of the encoder: run both searches at the current
position, pick the command by the fixed comparison
(`best <= 1` → Copy; `lz77 > rle` → Lz77; otherwise Rle), and write its
operand bytes.  Returns the command, the consumed length `best`, and the
destination after the operand writes. -/
def encodeSlotStep (src : List Nat) (ubp ubs bOff : Nat) (dst : Cursor) :
    CompressionCommand × Nat × Cursor :=
  let cup := ubp + bOff
  let firstByte := src.getD cup 0
  let lz := lz77Search src cup bOff ubs
  let rc := rleCount src cup bOff ubs
  let best := max lz.1 rc
  if best ≤ 1 then (.copy, best, writeAll dst [firstByte])
  else if rc < lz.1 then
    (.lz77, best,
      writeAll dst [lz.2 % 256, (lz.1 - 2) ||| (((lz.2 &&& 0xF00) >>> 4) % 256)])
  else (.rle, best, writeAll dst [(rc - 2) % 256, firstByte])

/-- The `for command_number in 0..4` loop filling one command group:
`remaining` slots left, `cmdNum` the current slot index, `cb` the
accumulated commands byte, `lastCmd` the running `last_command_number`.
Returns `(commands byte, new block offset, last command number, dst)`. -/
def encodeGroupSlots (src : List Nat) (ubp ubs : Nat) :
    Nat → Nat → Nat → Nat → Int → Cursor → Nat × Nat × Int × Cursor
  | 0, _, bOff, cb, lastCmd, dst => (cb, bOff, lastCmd, dst)
  | remaining + 1, cmdNum, bOff, cb, lastCmd, dst =>
    if bOff ≥ ubs then (cb, bOff, lastCmd, dst)
    else
      encodeGroupSlots src ubp ubs remaining (cmdNum + 1)
        (bOff + (encodeSlotStep src ubp ubs bOff dst).2.1)
        (cb ||| (commandCode (encodeSlotStep src ubp ubs bOff dst).1 <<< (cmdNum * 2)))
        (Int.ofNat cmdNum) (encodeSlotStep src ubp ubs bOff dst).2.2

theorem rleCountFrom_ge (src : List Nat) (cup bOff bSz rc : Nat) :
    rc ≤ rleCountFrom src cup bOff bSz rc := by
  rw [rleCountFrom]
  split
  · split
    · have := rleCountFrom_ge src cup bOff bSz (rc + 1)
      omega
    · exact Nat.le_refl rc
  · exact Nat.le_refl rc
termination_by 257 - rc

theorem encodeSlotStep_consumed_pos (src : List Nat) (ubp ubs bOff : Nat)
    (dst : Cursor) : 1 ≤ (encodeSlotStep src ubp ubs bOff dst).2.1 := by
  have h1 : 1 ≤ rleCount src (ubp + bOff) bOff ubs := rleCountFrom_ge src _ bOff ubs 1
  have h2 : 1 ≤ max (lz77Search src (ubp + bOff) bOff ubs).1
      (rleCount src (ubp + bOff) bOff ubs) :=
    le_trans h1 (Nat.le_max_right _ _)
  simp only [encodeSlotStep]
  split_ifs <;> simpa using h2

theorem encodeGroupSlots_bOff_le (src : List Nat) (ubp ubs : Nat) :
    ∀ remaining cmdNum bOff cb lastCmd dst,
      bOff ≤ (encodeGroupSlots src ubp ubs remaining cmdNum bOff cb lastCmd dst).2.1
  | 0, _, _, _, _, _ => Nat.le_refl _
  | remaining + 1, cmdNum, bOff, cb, lastCmd, dst => by
    rw [encodeGroupSlots]
    split
    · exact Nat.le_refl _
    · have h1 := encodeSlotStep_consumed_pos src ubp ubs bOff dst
      have h2 := encodeGroupSlots_bOff_le src ubp ubs remaining (cmdNum + 1)
        (bOff + (encodeSlotStep src ubp ubs bOff dst).2.1)
        (cb ||| (commandCode (encodeSlotStep src ubp ubs bOff dst).1 <<< (cmdNum * 2)))
        (Int.ofNat cmdNum) (encodeSlotStep src ubp ubs bOff dst).2.2
      omega

theorem encodeGroupSlots_bOff_lt (src : List Nat) (ubp ubs : Nat)
    (cmdNum bOff cb : Nat) (lastCmd : Int) (dst : Cursor) (remaining : Nat)
    (hrem : 0 < remaining) (hlt : bOff < ubs) :
    bOff < (encodeGroupSlots src ubp ubs remaining cmdNum bOff cb lastCmd dst).2.1 := by
  match remaining with
  | 0 => omega
  | remaining + 1 =>
    rw [encodeGroupSlots]
    split
    · omega
    · have h1 := encodeSlotStep_consumed_pos src ubp ubs bOff dst
      have h2 := encodeGroupSlots_bOff_le src ubp ubs remaining (cmdNum + 1)
        (bOff + (encodeSlotStep src ubp ubs bOff dst).2.1)
        (cb ||| (commandCode (encodeSlotStep src ubp ubs bOff dst).1 <<< (cmdNum * 2)))
        (Int.ofNat cmdNum) (encodeSlotStep src ubp ubs bOff dst).2.2
      omega

/-- The `while uncompressed_block_offset < uncompressed_block_size` loop:
one command group per iteration — reserve the commands byte, fill up to four
slots, backpatch the commands byte, seek back to the end.  Returns the final
`last_command_number` and destination. -/
def encodeGroups (src : List Nat) (ubp ubs : Nat) (bOff : Nat) (lastCmd : Int)
    (dst : Cursor) : Int × Cursor :=
  if h : bOff < ubs then
    let cbPos := dst.pos
    let dst1 := writeAll dst [0]
    let r := encodeGroupSlots src ubp ubs 4 0 bOff 0 lastCmd dst1
    let dst3 := writeAll ⟨r.2.2.2.data, cbPos⟩ [r.1]
    encodeGroups src ubp ubs r.2.1 r.2.2.1 ⟨dst3.data, dst3.data.length⟩
  else (lastCmd, dst)
termination_by ubs - bOff
decreasing_by
  have := encodeGroupSlots_bOff_lt src ubp ubs 0 bOff 0 lastCmd
    (writeAll dst [0]) 4 (by omega) h
  omega

/-- Encode one block: reserve the 2-byte size prefix, run the group loop,
append the explicit `EndBlock` zero byte when the last group was full, then
backpatch the size prefix (failing when it does not fit in a `u16`). -/
def compressBlock (src : List Nat) (bn : Nat) (dst : Cursor) :
    Except CompressionError Cursor :=
  let ubp := bn * 512
  let ubs := min (src.length - ubp) 512
  let cbp := dst.pos
  let dst1 := writeAll dst [0, 0]
  let r := encodeGroups src ubp ubs 0 (-1) dst1
  let dst2 := if r.1 = 3 then writeAll r.2 [0] else r.2
  let bs := dst2.pos - cbp - 2
  if bs > 0xFFFF then .error .tryFromInt
  else
    let dst3 := writeAll ⟨dst2.data, cbp⟩ [bs % 256, (bs / 256) % 256]
    .ok ⟨dst3.data, dst3.data.length⟩

/-- The `for block_number in 0..num_blocks` loop. -/
def compressBlocks (src : List Nat) : Nat → Nat → Cursor →
    Except CompressionError Cursor
  | _, 0, dst => .ok dst
  | bn, r + 1, dst =>
    match compressBlock src bn dst with
    | .error e => .error e
    | .ok dst1 => compressBlocks src (bn + 1) r dst1

/-- `compress(src, dst)`: header varints then the block loop.
`num_blocks` is `ceil(len / 512)` (the `f64` division by 512 is exact for
any `u32` size, so its ceiling equals `(len + 511) / 512`); on empty input
`num_blocks` is 0 and the `u32` subtraction `num_blocks - 1` underflows
(Rust panic), modelled by `overflow`. -/
def compress (src : List Nat) (dst : Cursor) : Except CompressionError Cursor :=
  let us := src.length
  if us ≥ 2 ^ 32 then .error .tryFromInt
  else
    match encodeVar us with
    | .error e => .error e
    | .ok header =>
      let dst1 := writeAll dst header
      let numBlocks := (us + 511) / 512
      if numBlocks = 0 then .error .overflow
      else
        match encodeVar (numBlocks - 1) with
        | .error e => .error e
        | .ok header2 => compressBlocks src 0 numBlocks (writeAll dst1 header2)

/-! ## Basic cursor lemmas -/

theorem writeAll_at_end (data bs : List Nat) :
    writeAll ⟨data, data.length⟩ bs = ⟨data ++ bs, data.length + bs.length⟩ := by
  simp [writeAll, List.drop_eq_nil_of_le]

/-! ## Error characterization of the decoder

`errorShape strict e` holds of every error `e` that `decompress` with the
given strictness can produce: invalid-command errors never occur, and the two
size-mismatch errors occur only in strict mode with genuinely differing
sizes. -/

def errorShape (strict : Bool) (e : DecompressionError) : Prop :=
  match e with
  | .invalidCompressionCommand _ => False
  | .incorrectBlockSize d a => strict = true ∧ a ≠ d
  | .incorrectUncompressedSize d a => strict = true ∧ a ≠ d
  | .ioError => True
  | .overflow => True

theorem readU8_error {s : Cursor} {e : DecompressionError}
    (h : readU8 s = .error e) : e = .ioError := by
  unfold readU8 at h
  split at h <;> simp_all


theorem readU16LE_error {s : Cursor} {e : DecompressionError}
    (h : readU16LE s = .error e) : e = .ioError := by
  unfold readU16LE at h
  split at h
  · rename_i e1 heq
    cases h
    exact readU8_error heq
  · split at h
    · rename_i e2 heq2
      cases h
      exact readU8_error heq2
    · exact Except.noConfusion h

theorem readExact_error {s : Cursor} {n : Nat} {e : DecompressionError}
    (h : readExact s n = .error e) : e = .ioError := by
  unfold readExact at h
  split at h <;> simp_all

theorem seekBack_error {s : Cursor} {d : Nat} {e : DecompressionError}
    (h : seekBack s d = .error e) : e = .ioError := by
  unfold seekBack at h
  split at h <;> simp_all

theorem readVarintAux_error :
    ∀ {s : Cursor} {i remaining acc : Nat} {e : DecompressionError},
      readVarintAux s i remaining acc = .error e → e = .ioError := by
  intro s i remaining
  induction remaining generalizing s i with
  | zero => intro acc e h; simp [readVarintAux] at h
  | succ r ih =>
    intro acc e h
    unfold readVarintAux at h
    split at h
    · rename_i e1 heq
      cases h
      exact readU8_error heq
    · exact ih h

theorem readVarint_error {s : Cursor} {e : DecompressionError}
    (h : readVarint s = .error e) : e = .ioError := by
  unfold readVarint at h
  split at h
  · rename_i e1 heq
    cases h
    exact readU8_error heq
  · exact readVarintAux_error h

theorem execCommand_error {c : CompressionCommand} {src dst : Cursor}
    {e : DecompressionError} (h : execCommand c src dst = .error e) :
    e = .ioError ∨ e = .overflow := by
  cases c with
  | endBlock => exact Except.noConfusion h
  | copy =>
    simp only [execCommand] at h
    split at h
    · rename_i e1 heq
      cases h
      exact Or.inl (readU8_error heq)
    · exact Except.noConfusion h
  | lz77 =>
    simp only [execCommand] at h
    split at h
    · rename_i e1 heq
      cases h
      exact Or.inl (readU8_error heq)
    · split at h
      · rename_i e2 heq2
        cases h
        exact Or.inl (readU8_error heq2)
      · split at h
        · rename_i e3 heq3
          cases h
          exact Or.inl (seekBack_error heq3)
        · split at h
          · rename_i e4 heq4
            cases h
            exact Or.inl (readExact_error heq4)
          · exact Except.noConfusion h
  | rle =>
    simp only [execCommand] at h
    split at h
    · rename_i e1 heq
      cases h
      exact Or.inl (readU8_error heq)
    · split at h
      · injection h with h2
        exact Or.inr h2.symm
      · split at h
        · rename_i e2 heq2
          cases h
          exact Or.inl (readU8_error heq2)
        · exact Except.noConfusion h

theorem commandOfNat_isSome_of_lt {x : Nat} (h : x < 4) :
    ∃ c, commandOfNat x = some c := by
  interval_cases x <;> exact ⟨_, rfl⟩

theorem runGroup_error :
    ∀ {k cb : Nat} {src dst : Cursor} {e : DecompressionError},
      runGroup cb k src dst = .error e → e = .ioError ∨ e = .overflow := by
  intro k
  induction k with
  | zero => intro cb src dst e h; exact Except.noConfusion h
  | succ k ih =>
    intro cb src dst e h
    unfold runGroup at h
    split at h
    · rename_i heq
      have h4 : cb &&& 0x03 < 4 :=
        lt_of_le_of_lt Nat.and_le_right (by norm_num)
      obtain ⟨c, hc⟩ := commandOfNat_isSome_of_lt h4
      rw [hc] at heq
      exact Option.noConfusion heq
    · exact Except.noConfusion h
    · split at h
      · rename_i e1 heq1
        cases h
        exact execCommand_error heq1
      · exact ih h

theorem runBlockBody_error :
    ∀ {fuel : Nat} {src dst : Cursor} {e : DecompressionError},
      runBlockBody fuel src dst = .error e → e = .ioError ∨ e = .overflow := by
  intro fuel
  induction fuel with
  | zero => intro src dst e h; exact Except.noConfusion h
  | succ f ih =>
    intro src dst e h
    unfold runBlockBody at h
    split at h
    · rename_i e1 heq
      cases h
      exact Or.inl (readU8_error heq)
    · split at h
      · rename_i e2 heq2
        cases h
        exact runGroup_error heq2
      · split at h
        · exact Except.noConfusion h
        · exact ih h

theorem checkBlockSize_error {strict : Bool} {declared actual : Nat}
    {e : DecompressionError} (h : checkBlockSize strict declared actual = .error e) :
    e = .incorrectBlockSize declared actual ∧ strict = true ∧ actual ≠ declared := by
  unfold checkBlockSize at h
  split at h
  · split at h <;> simp_all
  · simp_all

theorem checkUncompressedSize_error {strict : Bool} {declared actual : Nat}
    {e : DecompressionError}
    (h : checkUncompressedSize strict declared actual = .error e) :
    e = .incorrectUncompressedSize declared actual ∧ strict = true ∧ actual ≠ declared := by
  unfold checkUncompressedSize at h
  split at h
  · split at h <;> simp_all
  · simp_all

theorem runBlocks_error :
    ∀ {n : Nat} {strict : Bool} {src dst : Cursor} {e : DecompressionError},
      runBlocks strict n src dst = .error e → errorShape strict e := by
  intro n
  induction n with
  | zero => intro strict src dst e h; exact Except.noConfusion h
  | succ n ih =>
    intro strict src dst e h
    unfold runBlocks at h
    split at h
    · rename_i e1 heq
      cases h
      rw [readU16LE_error heq]
      trivial
    · split at h
      · rename_i e2 heq2
        cases h
        rcases runBlockBody_error heq2 with h3 | h3 <;> rw [h3] <;> trivial
      · split at h
        · rename_i e3 heq3
          cases h
          obtain ⟨he, hs, hne⟩ := checkBlockSize_error heq3
          rw [he]
          exact ⟨hs, hne⟩
        · exact ih h

theorem decompress_error {src dst : Cursor} {strict : Bool}
    {e : DecompressionError} (h : decompress src dst strict = .error e) :
    errorShape strict e := by
  unfold decompress at h
  split at h
  · rename_i e1 heq
    cases h
    rw [readVarint_error heq]
    trivial
  · split at h
    · rename_i e2 heq2
      cases h
      rw [readVarint_error heq2]
      trivial
    · split at h
      · rename_i e3 heq3
        cases h
        exact runBlocks_error heq3
      · split at h
        · rename_i e4 heq4
          cases h
          obtain ⟨he, hs, hne⟩ := checkUncompressedSize_error heq4
          rw [he]
          exact ⟨hs, hne⟩
        · exact Except.noConfusion h

/-! ## Claim theorems -/

/-- C5: `compress` on an empty input computes `num_blocks = 0`, and the `u32`
subtraction `num_blocks - 1` underflows, so `compress` panics (modelled by the
`overflow` error) and never produces output for zero-length input. -/
theorem compress_empty_input_panics (dst : Cursor) :
    compress [] dst = .error .overflow := by
  simp [compress, encodeVar, varIntTail]

/-- C2: the `Rle` arm of `decompress` appends `value` repeated `n + 2` times —
but only for count bytes `n ≤ 253`; for `n = 254` (and 255) the `u8` addition
`read_u8()? + 2` overflows and the decoder panics (modelled by `overflow`)
instead of appending 256 (or 257) copies. -/
theorem rle_decode_appends (n v : Nat) (rest out : List Nat) (h : n ≤ 253) :
    execCommand .rle ⟨n :: v :: rest, 0⟩ ⟨out, out.length⟩ =
      .ok (⟨n :: v :: rest, 2⟩,
        ⟨out ++ List.replicate (n + 2) v, out.length + (n + 2)⟩) ∧
    execCommand .rle ⟨[254, 7], 0⟩ ⟨[], 0⟩ = .error .overflow := by
  constructor
  · have h1 : readU8 ⟨n :: v :: rest, 0⟩ = .ok (n, ⟨n :: v :: rest, 1⟩) := rfl
    have h2 : readU8 ⟨n :: v :: rest, 1⟩ = .ok (v, ⟨n :: v :: rest, 2⟩) := rfl
    simp only [execCommand, h1, h2]
    rw [if_neg (by omega)]
    rw [show (⟨out, out.length⟩ : Cursor) = ⟨out, List.length out⟩ from rfl,
      writeAll_at_end]
    simp
  · rfl

theorem rle_decode_appends_witness :
    execCommand .rle ⟨[3, 5], 0⟩ ⟨[9], 1⟩ =
      .ok (⟨[3, 5], 2⟩, ⟨[9, 5, 5, 5, 5, 5], 6⟩) := by
  have := (rle_decode_appends 3 5 [] [9] (by omega)).1
  simpa using this

/-- C3 counterexample: decoding an `Lz77` command with distance 3 and
length 10 against a destination ending in `[1, 2, 3]` does not append the
overlapped repetition — the bulk `read_exact` of 10 bytes with only 3
available fails with an I/O error. -/
theorem lz77_overlap_errors :
    execCommand .lz77 ⟨[3, 8], 0⟩ ⟨[1, 2, 3], 3⟩ = .error .ioError := by
  rfl

/-- C3 amended: for an `Lz77` command with operands `(b0, b1)` (distance
`b0 | ((b1 & 0xF0) << 4)` within the output), the copy succeeds and appends
the `length` bytes located `distance` back exactly when `length ≤ distance`;
when `distance < length` (a self-overlapping back-reference) the destination
read fails with an I/O error instead of producing repetition. -/
theorem lz77_decode_spec (b0 b1 : Nat) (rest out : List Nat)
    (hd : b0 ||| ((b1 &&& 0xF0) <<< 4) ≤ out.length) :
    execCommand .lz77 ⟨b0 :: b1 :: rest, 0⟩ ⟨out, out.length⟩ =
      if (b1 &&& 0x0F) + 2 ≤ b0 ||| ((b1 &&& 0xF0) <<< 4) then
        .ok (⟨b0 :: b1 :: rest, 2⟩,
          ⟨out ++
              (out.drop (out.length - (b0 ||| ((b1 &&& 0xF0) <<< 4)))).take
                ((b1 &&& 0x0F) + 2),
            out.length + ((b1 &&& 0x0F) + 2)⟩)
      else .error .ioError := by
  have h1 : readU8 ⟨b0 :: b1 :: rest, 0⟩ = .ok (b0, ⟨b0 :: b1 :: rest, 1⟩) := rfl
  have h2 : readU8 ⟨b0 :: b1 :: rest, 1⟩ = .ok (b1, ⟨b0 :: b1 :: rest, 2⟩) := rfl
  have h3 : seekBack ⟨out, out.length⟩ (b0 ||| ((b1 &&& 0xF0) <<< 4)) =
      .ok ⟨out, out.length - (b0 ||| ((b1 &&& 0xF0) <<< 4))⟩ := by
    unfold seekBack
    rw [if_pos hd]
  simp only [execCommand, h1, h2, h3]
  by_cases hlen : (b1 &&& 0x0F) + 2 ≤ b0 ||| ((b1 &&& 0xF0) <<< 4)
  · rw [if_pos hlen]
    have h4 : readExact ⟨out, out.length - (b0 ||| ((b1 &&& 0xF0) <<< 4))⟩
        ((b1 &&& 0x0F) + 2) =
        .ok ((out.drop (out.length - (b0 ||| ((b1 &&& 0xF0) <<< 4)))).take
            ((b1 &&& 0x0F) + 2),
          ⟨out, out.length - (b0 ||| ((b1 &&& 0xF0) <<< 4)) + ((b1 &&& 0x0F) + 2)⟩) := by
      unfold readExact
      exact if_pos (show out.length - (b0 ||| ((b1 &&& 0xF0) <<< 4))
        + ((b1 &&& 0x0F) + 2) ≤ out.length by omega)
    simp only [h4, seekEnd, writeAll_at_end]
    have h5 : ((out.drop (out.length - (b0 ||| ((b1 &&& 0xF0) <<< 4)))).take
        ((b1 &&& 0x0F) + 2)).length = (b1 &&& 0x0F) + 2 := by
      simp only [List.length_take, List.length_drop]
      omega
    rw [h5]
  · rw [if_neg hlen]
    have h4 : readExact ⟨out, out.length - (b0 ||| ((b1 &&& 0xF0) <<< 4))⟩
        ((b1 &&& 0x0F) + 2) = .error .ioError := by
      unfold readExact
      exact if_neg (show ¬ (out.length - (b0 ||| ((b1 &&& 0xF0) <<< 4))
        + ((b1 &&& 0x0F) + 2) ≤ out.length) by omega)
    simp only [h4]

theorem lz77_decode_spec_witness :
    execCommand .lz77 ⟨[2, 0], 0⟩ ⟨[9, 9], 2⟩ =
      .ok (⟨[2, 0], 2⟩, ⟨[9, 9, 9, 9], 4⟩) := by
  have := lz77_decode_spec 2 0 [] [9, 9] (by decide)
  simpa using this

/-- C10: the invalid-command branch of `decompress` is unreachable: every
command byte is masked with `0x03`, all four 2-bit values map to commands,
and `decompress` never returns `InvalidCompressionCommand`. -/
theorem decompress_no_invalid_command (src dst : Cursor) (strict : Bool) (k : Nat) :
    decompress src dst strict ≠ .error (.invalidCompressionCommand k) ∧
    ∀ b : Nat, ∃ c, commandOfNat (b &&& 0x03) = some c := by
  constructor
  · intro h
    exact decompress_error h
  · intro b
    exact commandOfNat_isSome_of_lt (lt_of_le_of_lt Nat.and_le_right (by norm_num))

theorem decompress_no_invalid_command_witness :
    decompress ⟨[0], 0⟩ ⟨[], 0⟩ false ≠ .error (.invalidCompressionCommand 2) :=
  (decompress_no_invalid_command ⟨[0], 0⟩ ⟨[], 0⟩ false 2).1

/-- C9: the block-size check errors exactly when strict and the consumed
bytes differ from the declared prefix; the uncompressed-size check errors
exactly when strict and the written bytes differ from the header; and any
mismatch error escaping `decompress` implies strict mode with genuinely
different sizes, while with `strict = false` the only possible failures are
I/O errors or the Rle overflow panic. -/
theorem strict_size_mismatch_errors :
    (∀ (strict : Bool) (d a : Nat),
      checkBlockSize strict d a = .error (.incorrectBlockSize d a) ↔
        (strict = true ∧ a ≠ d)) ∧
    (∀ (strict : Bool) (d a : Nat),
      checkUncompressedSize strict d a = .error (.incorrectUncompressedSize d a) ↔
        (strict = true ∧ a ≠ d)) ∧
    (∀ (src dst : Cursor) (e : DecompressionError),
      decompress src dst false = .error e → e = .ioError ∨ e = .overflow) ∧
    (∀ (src dst : Cursor) (strict : Bool) (d a : Nat),
      decompress src dst strict = .error (.incorrectBlockSize d a) →
        strict = true ∧ a ≠ d) ∧
    (∀ (src dst : Cursor) (strict : Bool) (d a : Nat),
      decompress src dst strict = .error (.incorrectUncompressedSize d a) →
        strict = true ∧ a ≠ d) := by
  refine ⟨?_, ?_, ?_, ?_, ?_⟩
  · intro strict d a
    cases strict <;> unfold checkBlockSize <;> simp
  · intro strict d a
    cases strict <;> unfold checkUncompressedSize <;> simp
  · intro src dst e h
    have h2 := decompress_error h
    cases e with
    | invalidCompressionCommand k => exact h2.elim
    | incorrectUncompressedSize d a => exact absurd h2.1 (by simp)
    | incorrectBlockSize d a => exact absurd h2.1 (by simp)
    | ioError => exact Or.inl rfl
    | overflow => exact Or.inr rfl
  · intro src dst strict d a h
    exact decompress_error h
  · intro src dst strict d a h
    exact decompress_error h

theorem strict_size_mismatch_errors_witness : (true = true ∧ (2 : Nat) ≠ 5) :=
  strict_size_mismatch_errors.2.2.2.1 ⟨[1, 0, 5, 0, 1, 97], 0⟩ ⟨[], 0⟩ true 5 2
    (by rfl)

/-! ## Encoder search lemmas -/

theorem lz77Go_eq (src : List Nat) (cup bOff bSz off : Nat) (best : Nat × Nat) :
    lz77Go src cup bOff bSz off best =
      if 2 ≤ off then
        lz77Go src cup bOff bSz (off - 1)
          (if best.1 < matchLength src cup off bOff bSz then
            (matchLength src cup off bOff bSz, off)
          else best)
      else best := by
  rw [lz77Go]

theorem matchLengthFrom_le {src : List Nat} {cup off bOff bSz cl : Nat}
    (h : cl ≤ off) : matchLengthFrom src cup off bOff bSz cl ≤ off := by
  rw [matchLengthFrom]
  split
  · split
    · rename_i hcond _
      exact matchLengthFrom_le (by omega)
    · exact h
  · exact h
termination_by 17 - cl

theorem lz77Go_le {src : List Nat} {cup bOff bSz : Nat} :
    ∀ (off : Nat) (best : Nat × Nat), best.1 ≤ best.2 →
      (lz77Go src cup bOff bSz off best).1 ≤ (lz77Go src cup bOff bSz off best).2 := by
  intro off
  induction off using Nat.strong_induction_on with
  | _ off ih =>
    intro best hb
    rw [lz77Go_eq]
    split
    · rename_i h2
      apply ih (off - 1) (by omega)
      split
      · exact matchLengthFrom_le (Nat.zero_le off)
      · exact hb
    · exact hb

/-- C6: the match-extension loop stops at `current_length = offset`, so the
best LZ77 length never exceeds the best LZ77 distance; in particular every
`Lz77` command emitted by a slot of `compress` (which requires the LZ77
length to strictly beat the RLE count) has length at most its distance, so
`compress` never emits a self-overlapping back-reference. -/
theorem compress_lz77_length_le_distance :
    (∀ (src : List Nat) (cup bOff bSz : Nat),
      (lz77Search src cup bOff bSz).1 ≤ (lz77Search src cup bOff bSz).2) ∧
    (∀ (src : List Nat) (ubp ubs bOff : Nat) (dst : Cursor),
      (encodeSlotStep src ubp ubs bOff dst).1 = .lz77 →
        rleCount src (ubp + bOff) bOff ubs < (lz77Search src (ubp + bOff) bOff ubs).1 ∧
        (lz77Search src (ubp + bOff) bOff ubs).1 ≤
          (lz77Search src (ubp + bOff) bOff ubs).2) := by
  have hle : ∀ (src : List Nat) (cup bOff bSz : Nat),
      (lz77Search src cup bOff bSz).1 ≤ (lz77Search src cup bOff bSz).2 := by
    intro src cup bOff bSz
    exact lz77Go_le _ (0, 0) (Nat.le_refl 0)
  refine ⟨hle, ?_⟩
  intro src ubp ubs bOff dst h
  refine ⟨?_, hle src (ubp + bOff) bOff ubs⟩
  simp only [encodeSlotStep] at h
  split_ifs at h with h1 h2
  exact h2

theorem compress_lz77_length_le_distance_witness :
    rleCount [1, 2, 3, 1, 2, 3, 9] 3 3 7 < (lz77Search [1, 2, 3, 1, 2, 3, 9] 3 3 7).1 ∧
    (lz77Search [1, 2, 3, 1, 2, 3, 9] 3 3 7).1 ≤ (lz77Search [1, 2, 3, 1, 2, 3, 9] 3 3 7).2 :=
  compress_lz77_length_le_distance.2 [1, 2, 3, 1, 2, 3, 9] 0 7 3 ⟨[], 0⟩ (by
    simp [encodeSlotStep, lz77Search, lz77Go, matchLength, matchLengthFrom,
      rleCount, rleCountFrom])

/-- C7: at every encoding position the slot decision emits `Copy` exactly
when `max(lz77_len, rle_count) ≤ 1`, `Lz77` exactly when that max exceeds 1
and the LZ77 length strictly exceeds the RLE count, and `Rle` otherwise
(ties go to `Rle`); the consumed length is `max(lz77_len, rle_count)`
(`encodeGroupSlots` advances the block offset by exactly this value). -/
theorem encoder_decision (src : List Nat) (ubp ubs bOff : Nat) (dst : Cursor) :
    ((encodeSlotStep src ubp ubs bOff dst).1 = .copy ↔
      max (lz77Search src (ubp + bOff) bOff ubs).1
        (rleCount src (ubp + bOff) bOff ubs) ≤ 1) ∧
    ((encodeSlotStep src ubp ubs bOff dst).1 = .lz77 ↔
      1 < max (lz77Search src (ubp + bOff) bOff ubs).1
          (rleCount src (ubp + bOff) bOff ubs) ∧
        rleCount src (ubp + bOff) bOff ubs <
          (lz77Search src (ubp + bOff) bOff ubs).1) ∧
    ((encodeSlotStep src ubp ubs bOff dst).1 = .rle ↔
      1 < max (lz77Search src (ubp + bOff) bOff ubs).1
          (rleCount src (ubp + bOff) bOff ubs) ∧
        (lz77Search src (ubp + bOff) bOff ubs).1 ≤
          rleCount src (ubp + bOff) bOff ubs) ∧
    (encodeSlotStep src ubp ubs bOff dst).2.1 =
      max (lz77Search src (ubp + bOff) bOff ubs).1
        (rleCount src (ubp + bOff) bOff ubs) := by
  simp only [encodeSlotStep]
  split_ifs with h1 h2 <;> refine ⟨?_, ?_, ?_, ?_⟩ <;> simp <;> omega

theorem encoder_decision_witness :
    (encodeSlotStep [5] 0 1 0 ⟨[], 0⟩).1 = .copy :=
  (encoder_decision [5] 0 1 0 ⟨[], 0⟩).1.mpr (by
    simp [lz77Search, lz77Go, rleCount, rleCountFrom])

/-- C4 counterexample: at position 3 of `[7,7,7,7]` both candidate distances
2 and 3 achieve the maximal match length 1, yet the search keeps
`best_distance = 3`, the largest such distance, not the smallest 2 — the
descending scan updates only on strictly greater length, so the first
(largest-distance) maximal match is kept. -/
theorem lz77_tie_break_counterexample :
    lz77Search [7, 7, 7, 7] 3 3 4 = (1, 3) ∧
    matchLength [7, 7, 7, 7] 3 2 3 4 = 1 ∧
    matchLength [7, 7, 7, 7] 3 3 3 4 = 1 := by
  refine ⟨?_, ?_, ?_⟩ <;>
    simp [lz77Search, lz77Go, matchLength, matchLengthFrom]

theorem lz77Go_spec (src : List Nat) (cup bOff bSz : Nat) :
    ∀ (off : Nat) (best : Nat × Nat),
      best.1 ≤ (lz77Go src cup bOff bSz off best).1 ∧
      (∀ d, 2 ≤ d → d ≤ off →
        matchLength src cup d bOff bSz ≤ (lz77Go src cup bOff bSz off best).1) ∧
      (lz77Go src cup bOff bSz off best = best ∨
        (2 ≤ (lz77Go src cup bOff bSz off best).2 ∧
          (lz77Go src cup bOff bSz off best).2 ≤ off ∧
          matchLength src cup (lz77Go src cup bOff bSz off best).2 bOff bSz =
            (lz77Go src cup bOff bSz off best).1 ∧
          best.1 < (lz77Go src cup bOff bSz off best).1 ∧
          ∀ d, 2 ≤ d → d ≤ off →
            matchLength src cup d bOff bSz = (lz77Go src cup bOff bSz off best).1 →
              d ≤ (lz77Go src cup bOff bSz off best).2)) := by
  intro off
  induction off using Nat.strong_induction_on with
  | _ off ih =>
    intro best
    by_cases hoff : 2 ≤ off
    · have hrw : lz77Go src cup bOff bSz off best =
          lz77Go src cup bOff bSz (off - 1)
            (if best.1 < matchLength src cup off bOff bSz then
              (matchLength src cup off bOff bSz, off)
            else best) := by
        rw [lz77Go_eq, if_pos hoff]
      set cl := matchLength src cup off bOff bSz with hcl
      set best2 := if best.1 < cl then (cl, off) else best with hbest2
      obtain ⟨ih1, ih2, ih3⟩ := ih (off - 1) (by omega) best2
      rw [hrw]
      have hb1 : best.1 ≤ best2.1 := by
        rw [hbest2]
        split
        · rename_i hlt
          simpa using Nat.le_of_lt hlt
        · exact Nat.le_refl _
      have hcl_le : cl ≤ best2.1 := by
        rw [hbest2]
        split
        · simp
        · rename_i hnlt
          omega
      refine ⟨le_trans hb1 ih1, ?_, ?_⟩
      · intro d h2d hdo
        by_cases hd1 : d ≤ off - 1
        · exact ih2 d h2d hd1
        · have hde : d = off := by omega
          rw [hde]
          exact le_trans hcl_le ih1
      · rcases ih3 with heq | ⟨hr2, hro, hlen, hgt, hmax⟩
        · by_cases hup : best.1 < cl
          · right
            rw [heq, hbest2, if_pos hup]
            refine ⟨hoff, Nat.le_refl off, rfl, hup, ?_⟩
            intro d _ hdo _
            exact hdo
          · left
            rw [heq, hbest2, if_neg hup]
        · right
          refine ⟨hr2, by omega, hlen, lt_of_le_of_lt hb1 hgt, ?_⟩
          intro d h2d hdo hdlen
          by_cases hd1 : d ≤ off - 1
          · exact hmax d h2d hd1 hdlen
          · have hde : d = off := by omega
            rw [hde] at hdlen
            omega
    · rw [lz77Go_eq, if_neg hoff]
      refine ⟨Nat.le_refl _, ?_, Or.inl rfl⟩
      intro d h2d hdo
      omega

/-- C4 amended: in the encoder's LZ77 match search at any position, the best
length bounds the match length of every candidate distance, and when a match
was found (`best_length > 0`) the chosen `best_distance` achieves
`best_length` and is the LARGEST candidate distance achieving it (candidates
are scanned from `min(p, 4095)` down to 2 and the best is updated only on
strictly greater length, so the first — largest — maximal distance is kept,
not the smallest as the spec claims). -/
theorem lz77_tie_break (src : List Nat) (cup bOff bSz d : Nat)
    (h2 : 2 ≤ d) (hd : d ≤ min cup 0xFFF) :
    matchLength src cup d bOff bSz ≤ (lz77Search src cup bOff bSz).1 ∧
    (0 < (lz77Search src cup bOff bSz).1 →
      2 ≤ (lz77Search src cup bOff bSz).2 ∧
      matchLength src cup (lz77Search src cup bOff bSz).2 bOff bSz =
        (lz77Search src cup bOff bSz).1 ∧
      (matchLength src cup d bOff bSz = (lz77Search src cup bOff bSz).1 →
        d ≤ (lz77Search src cup bOff bSz).2)) := by
  rw [show lz77Search src cup bOff bSz =
    lz77Go src cup bOff bSz (min cup 0xFFF) (0, 0) from rfl]
  obtain ⟨h1, hall, hcase⟩ := lz77Go_spec src cup bOff bSz (min cup 0xFFF) (0, 0)
  refine ⟨hall d h2 hd, ?_⟩
  intro hpos
  rcases hcase with heq | ⟨hr2, hro, hlen, hgt, hmax⟩
  · rw [heq] at hpos
    exact absurd hpos (by simp)
  · exact ⟨hr2, hlen, fun hd2 => hmax d h2 hd hd2⟩

theorem lz77_tie_break_witness :
    (2 : Nat) ≤ (lz77Search [7, 7, 7, 7] 3 3 4).2 :=
  ((lz77_tie_break [7, 7, 7, 7] 3 3 4 2 (by norm_num) (by norm_num)).2
      (by simp [lz77Search, lz77Go, matchLength, matchLengthFrom])).2.2
    (by simp [lz77Search, lz77Go, matchLength, matchLengthFrom])

/-! ## Varint codec lemmas -/

theorem varIntTail_zero : varIntTail 0 = [] := by
  rw [varIntTail]
  norm_num

theorem varIntTail_one {t : Nat} (h1 : 0 < t) (h2 : t ≤ 255) :
    varIntTail t = [t] := by
  rw [varIntTail, if_neg (by omega), if_pos (by omega)]

theorem varIntTail_two {t : Nat} (h1 : 255 < t) (h2 : t / 64 ≤ 255) :
    varIntTail t = [t % 256, t / 64] := by
  rw [varIntTail, if_pos (by omega)]
  rw [varIntTail_one (by omega) h2]

theorem varIntTail_three {t : Nat} (h1 : 255 < t / 64) (h2 : t / 4096 ≤ 255) :
    varIntTail t = [t % 256, (t / 64) % 256, t / 4096] := by
  rw [varIntTail, if_pos (by omega)]
  rw [varIntTail_two h1 (by omega)]
  rw [Nat.div_div_eq_div_mul]

theorem varIntTail_len_ge_four {t : Nat} (h : 2 ^ 20 ≤ t) :
    4 ≤ (varIntTail t).length := by
  have hlast : 1 ≤ (varIntTail (t / 64 / 64 / 64)).length := by
    rw [varIntTail]
    split
    · simp
    · rw [if_pos (by omega)]
      simp
  rw [varIntTail, if_pos (by omega)]
  rw [varIntTail, if_pos (by omega)]
  rw [varIntTail, if_pos (by omega)]
  simp only [List.length_cons]
  omega

theorem shiftRight6_eq_div (n : Nat) : n >>> 6 = n / 64 := by
  rw [Nat.shiftRight_eq_div_pow]

theorem and_63_eq_mod (n : Nat) : n &&& 63 = n % 64 := by
  have h := Nat.and_pow_two_sub_one_eq_mod n 6
  norm_num at h
  exact h

theorem varjoin2 (x : Nat) : x % 64 ||| (x / 64) <<< 6 = x := by
  apply Nat.eq_of_testBit_eq
  intro i
  rw [show (64 : Nat) = 2 ^ 6 by norm_num, ← Nat.shiftRight_eq_div_pow]
  simp only [Nat.testBit_or, Nat.testBit_mod_two_pow, Nat.testBit_shiftLeft,
    Nat.testBit_shiftRight]
  rcases Nat.lt_or_ge i 6 with h6 | h6
  · simp [h6, show ¬ i ≥ 6 by omega]
  · simp [h6, show ¬ i < 6 by omega, show 6 + (i - 6) = i by omega]

theorem varjoin3 (x : Nat) :
    (x % 64 ||| ((x / 64) % 256) <<< 6) ||| (x / 4096) <<< 12 = x := by
  apply Nat.eq_of_testBit_eq
  intro i
  rw [show (64 : Nat) = 2 ^ 6 by norm_num, show (256 : Nat) = 2 ^ 8 by norm_num,
    show (4096 : Nat) = 2 ^ 12 by norm_num, ← Nat.shiftRight_eq_div_pow,
    ← Nat.shiftRight_eq_div_pow]
  simp only [Nat.testBit_or, Nat.testBit_mod_two_pow, Nat.testBit_shiftLeft,
    Nat.testBit_shiftRight]
  rcases Nat.lt_or_ge i 6 with h6 | h6
  · simp [h6, show ¬ i ≥ 6 by omega, show ¬ i ≥ 12 by omega]
  · rcases Nat.lt_or_ge i 12 with h12 | h12
    · simp [show ¬ i < 6 by omega, show i ≥ 6 from h6, show i - 6 < 8 by omega,
        show 6 + (i - 6) = i by omega, show ¬ i ≥ 12 by omega]
    · rcases Nat.lt_or_ge i 14 with h14 | h14
      · simp [show ¬ i < 6 by omega, show i ≥ 6 from h6, show i - 6 < 8 by omega,
          show 6 + (i - 6) = i by omega, show i ≥ 12 from h12,
          show 12 + (i - 12) = i by omega]
      · simp [show ¬ i < 6 by omega, show i ≥ 6 from h6, show ¬ i - 6 < 8 by omega,
          show i ≥ 12 from h12, show 12 + (i - 12) = i by omega]

theorem varjoin4 (x : Nat) :
    ((x % 64 ||| ((x / 64) % 256) <<< 6) ||| ((x / 4096) % 256) <<< 12) |||
        (x / 262144) <<< 18 = x := by
  apply Nat.eq_of_testBit_eq
  intro i
  rw [show (64 : Nat) = 2 ^ 6 by norm_num, show (256 : Nat) = 2 ^ 8 by norm_num,
    show (4096 : Nat) = 2 ^ 12 by norm_num,
    show (262144 : Nat) = 2 ^ 18 by norm_num, ← Nat.shiftRight_eq_div_pow,
    ← Nat.shiftRight_eq_div_pow, ← Nat.shiftRight_eq_div_pow]
  simp only [Nat.testBit_or, Nat.testBit_mod_two_pow, Nat.testBit_shiftLeft,
    Nat.testBit_shiftRight]
  rcases Nat.lt_or_ge i 6 with h6 | h6
  · simp [h6, show ¬ i ≥ 6 by omega, show ¬ i ≥ 12 by omega, show ¬ i ≥ 18 by omega]
  · rcases Nat.lt_or_ge i 12 with h12 | h12
    · simp [show ¬ i < 6 by omega, show i ≥ 6 from h6, show i - 6 < 8 by omega,
        show 6 + (i - 6) = i by omega, show ¬ i ≥ 12 by omega,
        show ¬ i ≥ 18 by omega]
    · rcases Nat.lt_or_ge i 14 with h14 | h14
      · simp [show ¬ i < 6 by omega, show i ≥ 6 from h6, show i - 6 < 8 by omega,
          show 6 + (i - 6) = i by omega, show i ≥ 12 from h12,
          show i - 12 < 8 by omega, show 12 + (i - 12) = i by omega,
          show ¬ i ≥ 18 by omega]
      · rcases Nat.lt_or_ge i 18 with h18 | h18
        · simp [show ¬ i < 6 by omega, show i ≥ 6 from h6, show ¬ i - 6 < 8 by omega,
            show i ≥ 12 from h12, show i - 12 < 8 by omega,
            show 12 + (i - 12) = i by omega, show ¬ i ≥ 18 by omega]
        · rcases Nat.lt_or_ge i 20 with h20 | h20
          · simp [show ¬ i < 6 by omega, show i ≥ 6 from h6,
              show ¬ i - 6 < 8 by omega, show i ≥ 12 from h12,
              show i - 12 < 8 by omega, show 12 + (i - 12) = i by omega,
              show i ≥ 18 from h18, show 18 + (i - 18) = i by omega]
          · simp [show ¬ i < 6 by omega, show i ≥ 6 from h6,
              show ¬ i - 6 < 8 by omega, show i ≥ 12 from h12,
              show ¬ i - 12 < 8 by omega, show i ≥ 18 from h18,
              show 18 + (i - 18) = i by omega]

theorem varint_roundtrip_main :
    ∀ (x : Nat) (bs : List Nat), encodeVar x = .ok bs →
      readVarint ⟨bs, 0⟩ = .ok (x, ⟨bs, bs.length⟩) := by
  intro x bs h
  rcases Nat.lt_or_ge x 64 with hA | hx1
  · -- 1-byte case
    have ht : varIntTail (x / 64) = [] := by
      rw [show x / 64 = 0 by omega]
      exact varIntTail_zero
    simp only [encodeVar, ht, List.length_nil, Nat.mul_zero, Nat.add_zero] at h
    rw [if_neg (by omega)] at h
    injection h with h
    subst h
    have hx : x % 64 = x := Nat.mod_eq_of_lt (by omega)
    rw [hx]
    simp only [readVarint, show readU8 ⟨[x], 0⟩ = .ok (x, ⟨[x], 1⟩) from rfl]
    rw [shiftRight6_eq_div, show x / 64 = 0 by omega]
    simp only [readVarintAux]
    rw [and_63_eq_mod, hx]
    simp
  · rcases Nat.lt_or_ge x 16384 with hB | hx2
    · -- 2-byte case
      have ht : varIntTail (x / 64) = [x / 64] :=
        varIntTail_one (by omega) (by omega)
      simp only [encodeVar, ht, List.length_cons, List.length_nil] at h
      rw [if_neg (by omega)] at h
      injection h with h
      subst h
      have r1 : readU8 ⟨[x % 64 + 64 * (0 + 1), x / 64], 0⟩ =
          .ok (x % 64 + 64 * (0 + 1), ⟨[x % 64 + 64 * (0 + 1), x / 64], 1⟩) := rfl
      have r2 : readU8 ⟨[x % 64 + 64 * (0 + 1), x / 64], 1⟩ =
          .ok (x / 64, ⟨[x % 64 + 64 * (0 + 1), x / 64], 2⟩) := rfl
      simp only [readVarint, r1]
      rw [shiftRight6_eq_div, show (x % 64 + 64 * (0 + 1)) / 64 = 1 by omega]
      rw [and_63_eq_mod, show (x % 64 + 64 * (0 + 1)) % 64 = x % 64 by omega]
      simp only [readVarintAux, r2]
      norm_num [varjoin2]
    · rcases Nat.lt_or_ge x (2 ^ 20) with hC | hx3
      · -- 3-byte case
        have ht : varIntTail (x / 64) = [(x / 64) % 256, x / 64 / 64] :=
          varIntTail_two (by omega) (by omega)
        simp only [encodeVar, ht, List.length_cons, List.length_nil] at h
        rw [if_neg (by omega)] at h
        injection h with h
        subst h
        have r1 : readU8 ⟨[x % 64 + 64 * (0 + 1 + 1), (x / 64) % 256, x / 64 / 64], 0⟩ =
            .ok (x % 64 + 64 * (0 + 1 + 1),
              ⟨[x % 64 + 64 * (0 + 1 + 1), (x / 64) % 256, x / 64 / 64], 1⟩) := rfl
        have r2 : readU8 ⟨[x % 64 + 64 * (0 + 1 + 1), (x / 64) % 256, x / 64 / 64], 1⟩ =
            .ok ((x / 64) % 256,
              ⟨[x % 64 + 64 * (0 + 1 + 1), (x / 64) % 256, x / 64 / 64], 2⟩) := rfl
        have r3 : readU8 ⟨[x % 64 + 64 * (0 + 1 + 1), (x / 64) % 256, x / 64 / 64], 2⟩ =
            .ok (x / 64 / 64,
              ⟨[x % 64 + 64 * (0 + 1 + 1), (x / 64) % 256, x / 64 / 64], 3⟩) := rfl
        simp only [readVarint, r1]
        rw [shiftRight6_eq_div, show (x % 64 + 64 * (0 + 1 + 1)) / 64 = 2 by omega]
        rw [and_63_eq_mod, show (x % 64 + 64 * (0 + 1 + 1)) % 64 = x % 64 by omega]
        simp only [readVarintAux, r2, r3]
        norm_num [Nat.div_div_eq_div_mul, varjoin3]
      · rcases Nat.lt_or_ge x (2 ^ 26) with hD | hx4
        · -- 4-byte case
          have ht : varIntTail (x / 64) =
              [(x / 64) % 256, (x / 64 / 64) % 256, x / 64 / 4096] :=
            varIntTail_three (by omega) (by omega)
          simp only [encodeVar, ht, List.length_cons, List.length_nil] at h
          rw [if_neg (by omega)] at h
          injection h with h
          subst h
          have r1 : readU8 ⟨[x % 64 + 64 * (0 + 1 + 1 + 1), (x / 64) % 256,
              (x / 64 / 64) % 256, x / 64 / 4096], 0⟩ =
              .ok (x % 64 + 64 * (0 + 1 + 1 + 1),
                ⟨[x % 64 + 64 * (0 + 1 + 1 + 1), (x / 64) % 256,
                  (x / 64 / 64) % 256, x / 64 / 4096], 1⟩) := rfl
          have r2 : readU8 ⟨[x % 64 + 64 * (0 + 1 + 1 + 1), (x / 64) % 256,
              (x / 64 / 64) % 256, x / 64 / 4096], 1⟩ =
              .ok ((x / 64) % 256,
                ⟨[x % 64 + 64 * (0 + 1 + 1 + 1), (x / 64) % 256,
                  (x / 64 / 64) % 256, x / 64 / 4096], 2⟩) := rfl
          have r3 : readU8 ⟨[x % 64 + 64 * (0 + 1 + 1 + 1), (x / 64) % 256,
              (x / 64 / 64) % 256, x / 64 / 4096], 2⟩ =
              .ok ((x / 64 / 64) % 256,
                ⟨[x % 64 + 64 * (0 + 1 + 1 + 1), (x / 64) % 256,
                  (x / 64 / 64) % 256, x / 64 / 4096], 3⟩) := rfl
          have r4 : readU8 ⟨[x % 64 + 64 * (0 + 1 + 1 + 1), (x / 64) % 256,
              (x / 64 / 64) % 256, x / 64 / 4096], 3⟩ =
              .ok (x / 64 / 4096,
                ⟨[x % 64 + 64 * (0 + 1 + 1 + 1), (x / 64) % 256,
                  (x / 64 / 64) % 256, x / 64 / 4096], 4⟩) := rfl
          simp only [readVarint, r1]
          rw [shiftRight6_eq_div, show (x % 64 + 64 * (0 + 1 + 1 + 1)) / 64 = 3 by omega]
          rw [and_63_eq_mod, show (x % 64 + 64 * (0 + 1 + 1 + 1)) % 64 = x % 64 by omega]
          simp only [readVarintAux, r2, r3, r4]
          norm_num [Nat.div_div_eq_div_mul, varjoin4]
        · -- 5-byte case: the first-byte increment overflows, encode_var panics
          have hlen : 4 ≤ (varIntTail (x / 64)).length :=
            varIntTail_len_ge_four (by omega)
          simp only [encodeVar] at h
          rw [if_pos (by omega)] at h
          exact Except.noConfusion h

/-- C8: the varint codec satisfies `encode(63) = [0x3F]`,
`encode(64) = [0x40, 0x01]`, and for every value whose encoding occupies
1 to 4 bytes (exactly the values on which `encode_var` does not overflow its
first byte), decoding the encoding returns the value and consumes all its
bytes. -/
theorem varint_roundtrip :
    encodeVar 63 = .ok [0x3F] ∧
    encodeVar 64 = .ok [0x40, 0x01] ∧
    ∀ (x : Nat) (bs : List Nat), encodeVar x = .ok bs → bs.length ≤ 4 →
      readVarint ⟨bs, 0⟩ = .ok (x, ⟨bs, bs.length⟩) := by
  refine ⟨?_, ?_, ?_⟩
  · simp only [encodeVar]
    rw [show (63 : Nat) / 64 = 0 by norm_num, varIntTail_zero]
    norm_num
  · simp only [encodeVar]
    rw [show (64 : Nat) / 64 = 1 by norm_num,
      varIntTail_one (by norm_num) (by norm_num)]
    norm_num
  · intro x bs h _
    exact varint_roundtrip_main x bs h

theorem varint_roundtrip_witness :
    readVarint ⟨[192, 0, 0, 128], 0⟩ = .ok (33554432, ⟨[192, 0, 0, 128], 4⟩) := by
  have henc : encodeVar 33554432 = .ok [192, 0, 0, 128] := by
    simp only [encodeVar]
    rw [show (33554432 : Nat) / 64 = 524288 by norm_num,
      varIntTail_three (by norm_num) (by norm_num)]
    norm_num
  have h := varint_roundtrip.2.2 33554432 [192, 0, 0, 128] henc (by norm_num)
  simpa using h

/-! ## Concrete evaluation of compress on a 256-byte run (C1) -/

theorem getD_replicate_256 (i : Nat) (h : i < 256) :
    (List.replicate 256 7).getD i 0 = 7 := by
  rw [List.getD_eq_getElem?_getD,
    List.getElem?_eq_getElem (by rw [List.length_replicate]; exact h),
    List.getElem_replicate]
  rfl

theorem rleCountFrom_replicate :
    ∀ (k rc : Nat), rc + k = 256 → 1 ≤ rc →
      rleCountFrom (List.replicate 256 7) 0 0 256 rc = 256 := by
  intro k
  induction k with
  | zero =>
    intro rc h h1
    rw [rleCountFrom, if_neg (by omega)]
    omega
  | succ k ih =>
    intro rc h h1
    rw [rleCountFrom, if_pos (by omega),
      getD_replicate_256 (0 + rc) (by omega), getD_replicate_256 0 (by omega),
      if_pos rfl]
    exact ih (rc + 1) (by omega) (by omega)

theorem rleCount_replicate : rleCount (List.replicate 256 7) 0 0 256 = 256 := by
  unfold rleCount
  exact rleCountFrom_replicate 255 1 (by norm_num) (by norm_num)

theorem lz77Search_replicate_0 :
    lz77Search (List.replicate 256 7) 0 0 256 = (0, 0) := by
  unfold lz77Search
  rw [lz77Go_eq, if_neg (by norm_num)]

theorem slotStep_replicate :
    encodeSlotStep (List.replicate 256 7) 0 256 0 ⟨[64, 4, 0, 0, 0, 0], 6⟩ =
      (.rle, 256, ⟨[64, 4, 0, 0, 0, 0, 254, 7], 8⟩) := by
  simp only [encodeSlotStep, Nat.add_zero, Nat.zero_add]
  rw [lz77Search_replicate_0, rleCount_replicate,
    getD_replicate_256 0 (by norm_num)]
  rw [if_neg (by norm_num), if_neg (by norm_num)]
  rfl

theorem slots_replicate :
    encodeGroupSlots (List.replicate 256 7) 0 256 4 0 0 0 (-1) ⟨[64, 4, 0, 0, 0, 0], 6⟩ =
      (3, 256, 0, ⟨[64, 4, 0, 0, 0, 0, 254, 7], 8⟩) := by
  rw [encodeGroupSlots, if_neg (by norm_num), slotStep_replicate]
  rw [show ((CompressionCommand.rle, (256 : Nat),
      (⟨[64, 4, 0, 0, 0, 0, 254, 7], 8⟩ : Cursor))).2.1 = 256 from rfl]
  rw [encodeGroupSlots, if_pos (by norm_num)]
  rfl

theorem encodeGroups_eq (src : List Nat) (ubp ubs bOff : Nat) (lastCmd : Int)
    (dst : Cursor) :
    encodeGroups src ubp ubs bOff lastCmd dst =
      if bOff < ubs then
        encodeGroups src ubp ubs
          (encodeGroupSlots src ubp ubs 4 0 bOff 0 lastCmd (writeAll dst [0])).2.1
          (encodeGroupSlots src ubp ubs 4 0 bOff 0 lastCmd (writeAll dst [0])).2.2.1
          ⟨(writeAll ⟨(encodeGroupSlots src ubp ubs 4 0 bOff 0 lastCmd
                (writeAll dst [0])).2.2.2.data, dst.pos⟩
              [(encodeGroupSlots src ubp ubs 4 0 bOff 0 lastCmd
                (writeAll dst [0])).1]).data,
            (writeAll ⟨(encodeGroupSlots src ubp ubs 4 0 bOff 0 lastCmd
                (writeAll dst [0])).2.2.2.data, dst.pos⟩
              [(encodeGroupSlots src ubp ubs 4 0 bOff 0 lastCmd
                (writeAll dst [0])).1]).data.length⟩
      else (lastCmd, dst) := by
  rw [encodeGroups]
  rfl

theorem groups_replicate :
    encodeGroups (List.replicate 256 7) 0 256 0 (-1) ⟨[64, 4, 0, 0, 0], 5⟩ =
      (0, ⟨[64, 4, 0, 0, 0, 3, 254, 7], 8⟩) := by
  rw [encodeGroups_eq, if_pos (by norm_num)]
  rw [show writeAll ⟨[64, 4, 0, 0, 0], 5⟩ [0] = ⟨[64, 4, 0, 0, 0, 0], 6⟩ from rfl]
  rw [slots_replicate]
  rw [encodeGroups_eq, if_neg (by norm_num)]
  rfl

theorem block_replicate :
    compressBlock (List.replicate 256 7) 0 ⟨[64, 4, 0], 3⟩ =
      .ok ⟨[64, 4, 0, 3, 0, 3, 254, 7], 8⟩ := by
  simp only [compressBlock, List.length_replicate, Nat.zero_mul, Nat.sub_zero]
  rw [show min (256 : Nat) 512 = 256 from rfl]
  rw [show writeAll ⟨[64, 4, 0], 3⟩ [0, 0] = ⟨[64, 4, 0, 0, 0], 5⟩ from rfl]
  rw [groups_replicate]
  rw [if_neg (by norm_num)]
  rw [if_neg (by norm_num)]
  rfl

theorem blocks_replicate :
    compressBlocks (List.replicate 256 7) 0 1 ⟨[64, 4, 0], 3⟩ =
      .ok ⟨[64, 4, 0, 3, 0, 3, 254, 7], 8⟩ := by
  rw [compressBlocks, block_replicate]
  rfl

theorem compress_replicate :
    compress (List.replicate 256 7) ⟨[], 0⟩ =
      .ok ⟨[64, 4, 0, 3, 0, 3, 254, 7], 8⟩ := by
  have henc1 : encodeVar 256 = .ok [64, 4] := by
    simp only [encodeVar]
    rw [show (256 : Nat) / 64 = 4 by norm_num,
      varIntTail_one (by norm_num) (by norm_num)]
    norm_num
  have henc2 : encodeVar 0 = .ok [0] := by
    simp only [encodeVar]
    rw [show (0 : Nat) / 64 = 0 by norm_num, varIntTail_zero]
    norm_num
  simp only [compress, List.length_replicate]
  rw [if_neg (by norm_num)]
  simp only [henc1]
  rw [show ((256 : Nat) + 511) / 512 = 1 by norm_num]
  rw [if_neg (by norm_num)]
  rw [show (1 : Nat) - 1 = 0 from rfl]
  simp only [henc2]
  rw [show writeAll ⟨[], 0⟩ [64, 4] = ⟨[64, 4], 2⟩ from rfl]
  rw [show writeAll ⟨[64, 4], 2⟩ [0] = ⟨[64, 4, 0], 3⟩ from rfl]
  exact blocks_replicate

/-- C1: the round-trip fails on the code.  A run of 256 equal bytes
compresses to a single `Rle` command with count byte 254, and decompressing
that very stream hits the `u8` overflow in `read_u8()? + 2` (a Rust panic,
modelled by the `overflow` error), so
`decompress(compress(B), strict=true) = B` does not hold for every buffer
`B` (compress on the empty buffer also panics, see C5). -/
theorem roundtrip_fails_on_long_run :
    compress (List.replicate 256 7) ⟨[], 0⟩ =
      .ok ⟨[64, 4, 0, 3, 0, 3, 254, 7], 8⟩ ∧
    decompress ⟨[64, 4, 0, 3, 0, 3, 254, 7], 0⟩ ⟨[], 0⟩ true =
      .error .overflow :=
  ⟨compress_replicate, by rfl⟩
